import Mathlib

/-!
Verification of the `accounting` repository's core (dates.py, acct/util.py,
transaction.py) against its natural-language specification.

Shallow embedding conventions:
* Python `datetime.date` values are embedded as records `(year, month, day)`
  with the Gregorian validity predicate; `date(y, m, d)` raising `ValueError`
  is embedded as `mkDate` returning `none`.
* Python generators are embedded as explicit state plus step functions; the
  unbounded `while True: try ... except ValueError` search loops take a fuel
  parameter, and fuel exhaustion (`none`) is distinguished from a raised
  exception (`Except.error`).
* Day arithmetic used by the ledger simulation scenario is embedded with dates
  as integers (days since 2024-01-01), because `Interval` recurrences only ever
  add whole-day deltas.
-/

namespace Acct

/-! ## Calendar model (Python `datetime.date`) -/

structure Date where
  year : Int
  month : Nat
  day : Nat
deriving DecidableEq, Repr

/-- Gregorian leap-year rule, as implemented by Python's `datetime`. -/
def isLeap (y : Int) : Bool :=
  (y % 4 == 0 && y % 100 != 0) || y % 400 == 0

/-- Number of days of month `m` of year `y`; `0` for an out-of-range month. -/
def daysInMonth (y : Int) (m : Nat) : Nat :=
  if m = 2 then (if isLeap y then 29 else 28)
  else if m = 4 ∨ m = 6 ∨ m = 9 ∨ m = 11 then 30
  else if 1 ≤ m ∧ m ≤ 12 then 31
  else 0

def validDate (d : Date) : Prop :=
  1 ≤ d.month ∧ d.month ≤ 12 ∧ 1 ≤ d.day ∧ d.day ≤ daysInMonth d.year d.month

instance (d : Date) : Decidable (validDate d) := by
  unfold validDate; infer_instance

/-- `datetime.date(y, m, d)`: `some` on success, `none` when the constructor
raises `ValueError`. -/
def mkDate (y : Int) (m : Nat) (d : Nat) : Option Date :=
  if validDate ⟨y, m, d⟩ then some ⟨y, m, d⟩ else none

/-- Python `date` comparison `a < b` (lexicographic year, month, day). -/
def dateLtB (a b : Date) : Bool :=
  decide (a.year < b.year) ||
    (decide (a.year = b.year) &&
      (decide (a.month < b.month) ||
        (decide (a.month = b.month) && decide (a.day < b.day))))

/-! ## dates.py -/

/-- `_get_next_year_month(year, month)`. -/
def nextYearMonth (y : Int) (m : Nat) : Int × Nat :=
  let m := m + 1
  if m > 12 then (y + 1, 1) else (y, m)

/-- The `while True: try: return date(year, month, day_of_month) except
ValueError: ...` loop shared by `_get_next_month_with_day` and
`_advance_month`, with fuel; `none` means the loop is still running after
`fuel` iterations (the Python loop is unbounded). `ValueError` is caught by
the loop, so no exception escapes. -/
def mwdLoop (dayOfMonth : Nat) : Nat → Int → Nat → Option Date
  | 0, _, _ => none
  | fuel + 1, y, m =>
    match mkDate y m dayOfMonth with
    | some d => some d
    | none => mwdLoop dayOfMonth fuel (nextYearMonth y m).1 (nextYearMonth y m).2

/-- `_get_next_month_with_day(d, day_of_month)` (body after its assert). -/
def getNextMonthWithDay (fuel : Nat) (d : Date) (dayOfMonth : Nat) : Option Date :=
  let ym : Int × Nat :=
    if dayOfMonth < d.day then nextYearMonth d.year d.month else (d.year, d.month)
  mwdLoop dayOfMonth fuel ym.1 ym.2

/-- `_advance_month(d)`. -/
def advanceMonth (fuel : Nat) (d : Date) : Option Date :=
  mwdLoop d.day fuel (nextYearMonth d.year d.month).1 (nextYearMonth d.year d.month).2

/-- Python errors that the embedded code can raise. -/
inductive PyErr where
  | attributeError
  | valueError
  | assertionError
deriving DecidableEq, Repr

instance {ε α : Type} [DecidableEq ε] [DecidableEq α] : DecidableEq (Except ε α) := fun x y =>
  match x, y with
  | .ok a, .ok b => if h : a = b then .isTrue (by rw [h]) else .isFalse (by simp [h])
  | .error a, .error b => if h : a = b then .isTrue (by rw [h]) else .isFalse (by simp [h])
  | .ok _, .error _ => .isFalse (by simp)
  | .error _, .ok _ => .isFalse (by simp)

/-- Calling the generator function `recur_monthly(start, day_of_month)`.
A Python generator-function call runs none of the body, so it cannot fail:
it just packages the arguments into a suspended generator. -/
def constructMonthly (start : Date) (dayOfMonth : Nat) : Except PyErr (Date × Nat) :=
  .ok (start, dayOfMonth)

/-- First advancement (`next`) of a `recur_monthly` generator: runs
`assert day_of_month <= 31` and then `_get_next_month_with_day`.
`some (.error e)` = raised `e`; `some (.ok d)` = yielded `d`;
`none` = still inside the unbounded search loop after `fuel` iterations. -/
def monthlyFirst (fuel : Nat) (g : Date × Nat) : Option (Except PyErr Date) :=
  if g.2 ≤ 31 then (getNextMonthWithDay fuel g.1 g.2).map .ok
  else some (.error .assertionError)

/-- `n`-th date yielded by `recur_monthly(start, day_of_month)` (after its
assert has passed): the first is `_get_next_month_with_day(start, day)`, each
following one is `_advance_month` of the previous. -/
def monthlyNth (fuel : Nat) (start : Date) (dayOfMonth : Nat) : Nat → Option Date
  | 0 => getNextMonthWithDay fuel start dayOfMonth
  | n + 1 => (monthlyNth fuel start dayOfMonth n).bind (advanceMonth fuel)

/-- Calling the generator function `recur_yearly(start, month, day)`:
like `constructMonthly`, runs no body code and cannot fail. -/
def constructYearly (start : Date) (month day : Nat) : Except PyErr (Date × Nat × Nat) :=
  .ok (start, month, day)

/-- First value of `recur_yearly`: `d = date(start.year, month, day)`;
`if d < start: d = date(start.year + 1, month, day)`; then `yield d`.
A failing `date` constructor raises `ValueError` (not caught here). -/
def yearlyFirst (start : Date) (month day : Nat) : Except PyErr Date :=
  match mkDate start.year month day with
  | none => .error .valueError
  | some d =>
    if dateLtB d start then
      match mkDate (start.year + 1) month day with
      | none => .error .valueError
      | some d2 => .ok d2
    else .ok d

/-- Loop body of `recur_yearly` after a yield: `d = date(d.year, month, day)`.
(The source does not advance the year here.) -/
def yearlyStep (month day : Nat) (d : Date) : Except PyErr Date :=
  match mkDate d.year month day with
  | none => .error .valueError
  | some d2 => .ok d2

/-- `n`-th value yielded by `recur_yearly(start, month, day)`. -/
def yearlyNth (start : Date) (month day : Nat) : Nat → Except PyErr Date
  | 0 => yearlyFirst start month day
  | n + 1 => (yearlyNth start month day n).bind (yearlyStep month day)

/-- The `while initial < start: initial += delta` loop of `recur_by_delta`,
over integer day numbers, with fuel (`none` = still looping). -/
def advLoop : Nat → Int → Int → Int → Option Int
  | 0, start, _, initial => if initial < start then none else some initial
  | fuel + 1, start, delta, initial =>
    if initial < start then advLoop fuel start delta (initial + delta) else some initial

/-- First value yielded by `recur_by_delta(start, delta, initial)`. A `date`
is always truthy in Python, so `if initial:` distinguishes exactly
`initial=None` (absent) from a given date. -/
def recurByDeltaFirst (fuel : Nat) (start delta : Int) (initial : Option Int) : Option Int :=
  match initial with
  | none => some start
  | some i => advLoop fuel start delta i

/-! ## acct/util.py: `OrderedStream` over finite (list-backed) sources

A `UniBufferedStream` holding at least one pending value is embedded as its
buffered value plus the remaining values.  The source removes an exhausted
stream from the slot dict as soon as it is detected (`add_source` never
inserts one, `generate` deletes one right after fetching), so only non-empty
streams are ever held. -/

structure UStream (α : Type) where
  buf : α
  rest : List α
deriving DecidableEq, Repr

/-- The slot table of an `OrderedStream`, with sources restricted to finite
(list-backed) iterators.  `streams` is the Python dict in its iteration
(insertion) order; slot ids are the dict keys.  `lastMin` is the `_min`
attribute (`none` while the attribute is not yet set).  `holes` is the
`_holes` set of freed slot ids. -/
structure OStream (α : Type) where
  streams : List (Nat × UStream α)
  holes : List Nat
  allowLate : Bool
  lastMin : Option α
deriving DecidableEq, Repr

/-- `max(self.streams, default=-1) + 1` over the dict keys. -/
def freshIdx (idxs : List Nat) : Nat :=
  ((idxs.foldl (fun acc i => max acc (i : Int)) (-1)) + 1).toNat

/-- The lateness test of `add_source`: `hasattr(self, "_min") and self._min
> stream.buf` — it compares the raw buffered values, not their keys. -/
def lateRejectB [LinearOrder α] (lastMin : Option α) (b : α) : Bool :=
  match lastMin with
  | some m => decide (b < m)
  | none => false

/-- `OrderedStream.add_source(source)`.  The lateness test compares the raw
buffered values (`self._min > stream.buf`), not their keys.  A freed slot id
is reused when one exists (CPython's `set.pop` picks an unspecified element;
we take the head of the freelist — slot ids are not observable in the
emitted sequence).  A new dict key is appended at the end of the iteration
order, as in Python. -/
def addSource [LinearOrder α] (os : OStream α) (src : List α) : OStream α :=
  match src with
  | [] => os
  | b :: rest =>
    if lateRejectB os.lastMin b && !os.allowLate then
      os
    else
      match os.holes with
      | i :: hs => { os with streams := os.streams ++ [(i, ⟨b, rest⟩)], holes := hs }
      | [] => { os with streams := os.streams ++ [(freshIdx (os.streams.map Prod.fst), ⟨b, rest⟩)] }

/-- `min(self.streams.items(), key=self._key)`: the first slot (in dict
order) whose buffered value has minimal key, returned together with the
entries before and after it.  Python's `min` keeps the earliest of several
minima. -/
def pickMin [LinearOrder β] (key : α → β) :
    List (Nat × UStream α) → Option (List (Nat × UStream α) × (Nat × UStream α) × List (Nat × UStream α))
  | [] => none
  | x :: xs =>
    match pickMin key xs with
    | none => some ([], x, xs)
    | some (pre, y, suf) =>
      if key y.2.buf < key x.2.buf then some (x :: pre, y, suf) else some ([], x, xs)

/-- One iteration of `OrderedStream.generate`'s `while` loop: select the
minimal slot, set `_min`, yield the value, advance that slot's stream and
free the slot if it is exhausted.  In the source the fetch happens when the
generator is resumed; it is modelled eagerly at the end of the step, which
leaves the emitted sequence unchanged: a source added in between is appended
at the end of the dict order either way, and slot ids do not influence
selection. -/
def step [LinearOrder β] (key : α → β) (os : OStream α) : Option (α × OStream α) :=
  match pickMin key os.streams with
  | none => none
  | some (pre, (i, s), suf) =>
    match s.rest with
    | [] =>
      some (s.buf, ⟨pre ++ suf, i :: os.holes, os.allowLate, some s.buf⟩)
    | r :: rs =>
      some (s.buf, ⟨pre ++ (i, (⟨r, rs⟩ : UStream α)) :: suf, os.holes, os.allowLate, some s.buf⟩)

/-- Number of values held by a slot list. -/
def sizeS (l : List (Nat × UStream α)) : Nat :=
  (l.map (fun p => p.2.rest.length + 1)).sum

/-- Total number of values still held by the slot table. -/
def totalSize (os : OStream α) : Nat :=
  sizeS os.streams

/-- `generate` run for at most `fuel` emissions. -/
def drainGo [LinearOrder β] (key : α → β) : Nat → OStream α → List α
  | 0, _ => []
  | fuel + 1, os =>
    match step key os with
    | none => []
    | some (v, os2) => v :: drainGo key fuel os2

/-- Full drain of `generate()`: every step emits one buffered value, so
`totalSize` many steps exhaust the stream. -/
def drain [LinearOrder β] (key : α → β) (os : OStream α) : List α :=
  drainGo key (totalSize os) os

/-- An empty `OrderedStream` (`streams = {}`, `_holes = set()`, `_min` not
yet set), before `__init__` adds the initial sources. -/
def emptyOS (allowLate : Bool) : OStream α :=
  ⟨[], [], allowLate, none⟩

/-- `OrderedStream(sources, key=key, allow_late=allowLate)`:
`add_source` applied to each source in order. -/
def initOS [LinearOrder α] (allowLate : Bool) (sources : List (List α)) : OStream α :=
  sources.foldl addSource (emptyOS allowLate)

/-- One observable operation on a live `OrderedStream`: either the consumer
advances `generate()` by one value, or some code calls `add_source`. -/
inductive Op (α : Type) where
  | emit
  | add (src : List α)
deriving DecidableEq, Repr

/-- Apply one operation to the stream state, accumulating emitted values. -/
def applyOp [LinearOrder α] [LinearOrder β] (key : α → β)
    (st : OStream α × List α) (op : Op α) : OStream α × List α :=
  match op with
  | .add src => (addSource st.1 src, st.2)
  | .emit =>
    match step key st.1 with
    | none => st
    | some (v, os2) => (os2, st.2 ++ [v])

/-- Run an arbitrary interleaving of `generate()` steps and `add_source`
calls, starting from a freshly constructed stream (initial sources are `add`
operations at the front of the trace). -/
def runTrace [LinearOrder α] [LinearOrder β] (key : α → β)
    (allowLate : Bool) (trace : List (Op α)) : OStream α × List α :=
  trace.foldl (applyOp key) (emptyOS allowLate, [])

/-- The key order lifted to values. -/
def leK (key : α → β) [LE β] (a b : α) : Prop :=
  key a ≤ key b

instance [LinearOrder β] (key : α → β) : DecidableRel (leK key) :=
  fun a b => inferInstanceAs (Decidable (key a ≤ key b))

/-- A source that is locally non-decreasing under the key. -/
def opOk [LinearOrder β] (key : α → β) : Op α → Prop
  | .emit => True
  | .add src => src.Pairwise (leK key)

instance [LinearOrder β] (key : α → β) (op : Op α) : Decidable (opOk key op) :=
  match op with
  | .emit => .isTrue trivial
  | .add src => inferInstanceAs (Decidable (src.Pairwise (leK key)))

/-- The per-slot value sequences (buffered value followed by the rest), in
dict order. -/
def streamLists (os : OStream α) : List (List α) :=
  os.streams.map (fun p => p.2.buf :: p.2.rest)

/-- Invariant tying an `OrderedStream` state to the values it has emitted:
reject-late mode; every slot's sequence is key-sorted; the emitted list is
key-sorted; nothing was emitted before `_min` was first set; and once `_min`
is set, emitted values are at or below it and pending values at or above it
(under the key). -/
def Inv [LinearOrder β] (key : α → β) (st : OStream α × List α) : Prop :=
  st.1.allowLate = false ∧
  (∀ l ∈ streamLists st.1, l.Pairwise (leK key)) ∧
  st.2.Pairwise (leK key) ∧
  (st.1.lastMin = none → st.2 = []) ∧
  ∀ m, st.1.lastMin = some m →
    (∀ o ∈ st.2, leK key o m) ∧ ∀ l ∈ streamLists st.1, ∀ v ∈ l, key m ≤ key v

/-! ## acct/util.py: `Buffer` -/

/-- The `Buffer` object.  `__init__` sets only the attribute `_data`; the
attribute named `data` (which `add` and `flush` read and write) is never
initialised, so it is `none` on a fresh object. -/
structure PyBuffer (ε : Type) where
  underData : List ε
  dataAttr : Option (List ε)
deriving DecidableEq, Repr

/-- `Buffer(items)`: `self._data = deque(items or [])`; `self.data` unset. -/
def bufferInit (items : Option (List ε)) : PyBuffer ε :=
  ⟨items.getD [], none⟩

/-- `Buffer.add(item)`: `self.data.append(item)` — reading the missed
attribute raises `AttributeError` when it was never assigned. -/
def bufferAdd (b : PyBuffer ε) (x : ε) : Except PyErr (PyBuffer ε) :=
  match b.dataAttr with
  | none => .error .attributeError
  | some l => .ok ⟨b.underData, some (l ++ [x])⟩

/-- `Buffer.flush()`: `items = list(self.data); self.data = deque(); return
items` — the initial read raises `AttributeError` when `data` was never
assigned. -/
def bufferFlush (b : PyBuffer ε) : Except PyErr (List ε × PyBuffer ε) :=
  match b.dataAttr with
  | none => .error .attributeError
  | some l => .ok (l, ⟨b.underData, some []⟩)

/-! ## transaction.py: data model and balance processing -/

/-- `Transaction = namedtuple("Transaction", ["amount", "debit", "credit",
"description"])`, generic in the numeric type `R` standing for Python's
float amounts (idealised as exact arithmetic: `ℚ` for the general balance
theorems, `Int` where the value is evaluated inside proofs). -/
structure Transaction (R : Type) where
  amount : R
  debit : String
  credit : String
  description : String
deriving DecidableEq, Repr

/-- `Entry = namedtuple("Entry", ["date", "transaction"])`, with dates as
integer day numbers. -/
structure Entry (R : Type) where
  date : Int
  transaction : Transaction R
deriving DecidableEq, Repr

/-- Python `<` on `Transaction` namedtuples: lexicographic on the fields. -/
def transLtB {R : Type} [LinearOrder R] (a b : Transaction R) : Bool :=
  decide (a.amount < b.amount) ||
    (decide (a.amount = b.amount) &&
      (decide (a.debit < b.debit) ||
        (decide (a.debit = b.debit) &&
          (decide (a.credit < b.credit) ||
            (decide (a.credit = b.credit) && decide (a.description < b.description))))))

/-- Python `<` on `Entry` namedtuples: date first, then the transaction. -/
def entryLtB {R : Type} [LinearOrder R] (a b : Entry R) : Bool :=
  decide (a.date < b.date) || (decide (a.date = b.date) && transLtB a.transaction b.transaction)

/-- The two balance updates of `Ledger.process`:
`accounts[debit] += amount` then `accounts[credit] -= amount`
(`defaultdict(float)` means every account reads as its running value,
starting at 0). -/
def applyEntry {R : Type} [Add R] [Sub R] (acc : String → R) (e : Entry R) : String → R :=
  let acc1 := fun a => if a = e.transaction.debit then acc a + e.transaction.amount else acc a
  fun a => if a = e.transaction.credit then acc1 a - e.transaction.amount else acc1 a

/-- Balance state after processing a list of entries in order. -/
def applyEntries {R : Type} [Add R] [Sub R] (acc : String → R) (entries : List (Entry R)) :
    String → R :=
  entries.foldl applyEntry acc

/-- Running the alerter loop of `Ledger.process` over the alerters'
results: each returned alert is appended to the ledger's `Buffer` via
`add`; a raised exception propagates (fatal to the run). -/
def runAlerters (alerts : PyBuffer ε) (results : List (Option ε)) : Except PyErr (PyBuffer ε) :=
  results.foldl
    (fun acc r =>
      acc.bind (fun buf =>
        match r with
        | none => .ok buf
        | some ev => bufferAdd buf ev))
    (.ok alerts)

end Acct

namespace Acct.Sim

/-! ## transaction.py: `Ledger.simulate` for the end-to-end scenario

The scenario's `Interval` recurrence is an infinite generator, so here
sources are embedded as pure iterators `Nat → Option Entry` (the value
produced by the `n`-th `next` call) and `generate`/`simulate` run on fuel.
Dates are integer day numbers with epoch 2024-01-01 = 0; under that epoch
2024-01-05 = 4, 2024-01-19 = 18, 2024-02-02 = 32, 2024-02-16 = 46,
2024-03-01 = 60, and the transfer dates 2024-01-08 = 7, 2024-01-22 = 21,
2024-02-05 = 35, 2024-02-19 = 49. -/

/-- A non-exhausted `UniBufferedStream` over an iterator: the buffered value
plus the iterator and the count of values already fetched. -/
structure EStream where
  it : Nat → Option (Entry Int)
  buf : Entry Int
  pos : Nat

/-- `UniBufferedStream(it)` with the initial `fetch`: `none` when the source
is exhausted immediately (`add_source` then discards it). -/
def mkEStream (it : Nat → Option (Entry Int)) : Option EStream :=
  match it 0 with
  | none => none
  | some v => some ⟨it, v, 1⟩

/-- `UniBufferedStream.fetch`: `none` when the iterator is exhausted (the
stream's slot is then freed). -/
def fetchE (s : EStream) : Option EStream :=
  match s.it s.pos with
  | none => none
  | some v => some ⟨s.it, v, s.pos + 1⟩

/-- Slot table of the ledger's `OrderedStream` (constructed with the default
`allow_late=False`), sources being iterator-backed. -/
structure SimOS where
  streams : List (Nat × EStream)
  holes : List Nat
  lastMin : Option (Entry Int)

/-- `add_source` on the iterator-backed stream (reject-late mode; the raw
namedtuple comparison `self._min > stream.buf` decides lateness). -/
def simAddSource (os : SimOS) (it : Nat → Option (Entry Int)) : SimOS :=
  match mkEStream it with
  | none => os
  | some s =>
    if (match os.lastMin with | some m => entryLtB s.buf m | none => false) then os
    else
      match os.holes with
      | i :: hs => ⟨os.streams ++ [(i, s)], hs, os.lastMin⟩
      | [] => ⟨os.streams ++ [(freshIdx (os.streams.map Prod.fst), s)], [], os.lastMin⟩

/-- `min(self.streams.items(), key=self._key)` with `key=ledger_key`
(the entry date); the earliest slot in dict order wins ties. -/
def pickMinE : List (Nat × EStream) → Option (Nat × EStream)
  | [] => none
  | x :: xs =>
    match pickMinE xs with
    | none => some x
    | some y => if y.2.buf.date < x.2.buf.date then some y else some x

/-- `recur_once(start, d)` as an iterator. -/
def recurOnceIter (start d : Int) : Nat → Option Int :=
  fun n => if n = 0 ∧ start ≤ d then some d else none

/-- `recur_by_delta(start, delta, initial)` as an iterator: after the
initial-advancement loop the generator yields an arithmetic progression. -/
def recurByDeltaIter (fuel : Nat) (start delta : Int) (initial : Option Int) :
    Nat → Option Int :=
  fun n => (recurByDeltaFirst fuel start delta initial).map (fun i0 => i0 + n * delta)

/-- `generate_entries(recurrence, transaction)`. -/
def generateEntriesIter (dates : Nat → Option Int) (t : Transaction Int) :
    Nat → Option (Entry Int) :=
  fun n => (dates n).map (fun d => ⟨d, t⟩)

/-- The scenario's paycheck transaction `{amount: 1000, credit: "",
debit: "checking"}`. -/
def paycheckT : Transaction Int :=
  ⟨1000, "checking", "", "paycheck"⟩

/-- The scenario's actor: whenever the processed entry debits `"checking"`
and the post-update checking balance is positive, it schedules a one-time
transfer of 10% of the paycheck from checking to savings, dated three days
after the triggering entry.  It returns the `(recurrence, transaction)`
pair that `Ledger.process` feeds to `os.add_source` (the recurrence is
invoked with `self.t`, the date of the triggering entry). -/
def actorC1 (acc : String → Int) (e : Entry Int) :
    Option ((Int → Nat → Option Int) × Transaction Int) :=
  if e.transaction.debit = "checking" ∧ 0 < acc "checking" then
    some (fun t => recurOnceIter t (e.date + 3),
      ⟨e.transaction.amount / 10, "savings", "checking", "transfer"⟩)
  else none

/-- Ledger simulation state: the live merge stream, the `defaultdict(float)`
balances, and the entries yielded so far. -/
structure LState where
  os : SimOS
  accounts : String → Int
  out : List (Entry Int)

/-- One round of the `simulate`/`generate`/`process` interplay for the
scenario ledger (no alerters, the single actor `actorC1`):
`generate` selects the minimal slot and sets `_min`; `simulate` breaks
(without processing) when the entry's date exceeds `end`; otherwise
`process` applies the double-entry update, yields the entry, and runs the
actor — whose new source is injected before `generate` resumes; finally
`generate` fetches the emitting slot and frees it if exhausted. -/
def simStep (endD : Int) (st : LState) : Option LState :=
  match pickMinE st.os.streams with
  | none => none
  | some (i, s) =>
    let e := s.buf
    let os1 : SimOS := ⟨st.os.streams, st.os.holes, some e⟩
    if endD < e.date then none
    else
      let acc := applyEntry st.accounts e
      let os2 :=
        match actorC1 acc e with
        | none => os1
        | some (recFac, txn) => simAddSource os1 (generateEntriesIter (recFac e.date) txn)
      let os3 : SimOS :=
        match fetchE s with
        | some s2 => ⟨os2.streams.map (fun p => if p.1 = i then (i, s2) else p), os2.holes, os2.lastMin⟩
        | none => ⟨os2.streams.filter (fun p => p.1 != i), i :: os2.holes, os2.lastMin⟩
      some ⟨os3, acc, st.out ++ [e]⟩

/-- Iterate a partial step function; stop at the first `none`. -/
def iter (f : σ → Option σ) : Nat → σ → σ
  | 0, s => s
  | n + 1, s =>
    match f s with
    | none => s
    | some s2 => iter f n s2

/-- The scenario's single registered source, bound to `start = 2024-01-01`:
`Interval(delta=14 days, initial=2024-01-05)` carrying the paycheck. -/
def c1PayIter : Nat → Option (Entry Int) :=
  generateEntriesIter (recurByDeltaIter 1 0 14 (some 4)) paycheckT

/-- The ledger state at the top of `simulate(start=2024-01-01,
end=2024-02-16)`: the `OrderedStream` freshly built over the bound sources,
all balances 0 (`checking` registered at 0; `defaultdict` supplies 0 for
everything else), nothing yielded yet. -/
def c1Init : LState :=
  ⟨simAddSource ⟨[], [], none⟩ c1PayIter, fun _ => 0, []⟩

/-- The entries the simulation actually yields (day numbers as above):
paychecks on Jan 5 / Jan 19 / Feb 2 / Feb 16, transfers of 100 on
Jan 8 / Jan 22 / Feb 5.  The fourth transfer (Feb 19) is generated into the
stream but exceeds `end`, so `simulate` stops without processing it. -/
def c1Expected : List (Entry Int) :=
  [⟨4, paycheckT⟩, ⟨7, ⟨100, "savings", "checking", "transfer"⟩⟩,
   ⟨18, paycheckT⟩, ⟨21, ⟨100, "savings", "checking", "transfer"⟩⟩,
   ⟨32, paycheckT⟩, ⟨35, ⟨100, "savings", "checking", "transfer"⟩⟩,
   ⟨46, paycheckT⟩]

end Acct.Sim


namespace Acct

/-! ## Supporting lemmas and the claim theorems -/

lemma advLoop_isSome_of_le {delta : Int} (hd : 0 < delta) :
    ∀ (fuel : Nat) (start i : Int), start - i ≤ (fuel : Int) →
      (advLoop fuel start delta i).isSome := by
  intro fuel
  induction fuel with
  | zero =>
    intro start i h
    simp only [advLoop]
    have : ¬ i < start := by omega
    simp [this]
  | succ n ih =>
    intro start i h
    by_cases hlt : i < start
    · simp only [advLoop, if_pos hlt]
      exact ih start (i + delta) (by push_cast at h ⊢; omega)
    · simp [advLoop, hlt]

lemma advLoop_none_of_nonpos {delta : Int} (hd : delta ≤ 0) :
    ∀ (fuel : Nat) (start i : Int), i < start → advLoop fuel start delta i = none := by
  intro fuel
  induction fuel with
  | zero => intro start i h; simp [advLoop, h]
  | succ n ih =>
    intro start i h
    simp only [advLoop, if_pos h]
    exact ih start (i + delta) (by omega)

/-- C10: `recur_by_delta` produces a first value after finitely many loop
iterations exactly when the delta is positive or the initial-advancement is
not needed (initial absent, or already at/after start); with a non-positive
delta and `initial < start` the advancement loop never terminates. -/
theorem c10_recur_by_delta_productive_iff (start delta : Int) (initial : Option Int) :
    (∃ fuel, (recurByDeltaFirst fuel start delta initial).isSome) ↔
      (0 < delta ∨ initial = none ∨ ∃ i, initial = some i ∧ start ≤ i) := by
  constructor
  · rintro ⟨fuel, hf⟩
    by_contra hc
    push_neg at hc
    obtain ⟨hd, hinit, hge⟩ := hc
    rcases hi : initial with _ | i
    · exact hinit hi
    · have hlt : i < start := hge i hi
      rw [hi] at hf
      simp only [recurByDeltaFirst] at hf
      rw [advLoop_none_of_nonpos hd fuel start i hlt] at hf
      simp at hf
  · rintro (hd | hnone | ⟨i, hi, hge⟩)
    · match hi : initial with
      | none => exact ⟨0, by simp [recurByDeltaFirst]⟩
      | some i =>
        refine ⟨(start - i).toNat, ?_⟩
        simp only [recurByDeltaFirst]
        exact advLoop_isSome_of_le hd _ start i (Int.self_le_toNat _)
    · refine ⟨0, ?_⟩
      rw [hnone]
      simp [recurByDeltaFirst]
    · refine ⟨0, ?_⟩
      rw [hi]
      simp only [recurByDeltaFirst, advLoop]
      have : ¬ i < start := by omega
      simp [this]

/-- C5: the `recur_yearly` loop recomputes `date(d.year, month, day)`
without advancing the year, so every yielded value equals the first one —
consecutive yielded dates are 0 days apart, never 365 or 366.  Evaluated at
start 2024-01-01, month 3, day 15. -/
theorem c5_yearly_repeats_same_date (n : Nat) :
    yearlyNth ⟨2024, 1, 1⟩ 3 15 n = .ok ⟨2024, 3, 15⟩ := by
  induction n with
  | zero => decide
  | succ k ih => simp [yearlyNth, ih, yearlyStep]; decide

lemma daysInMonth_le_31 (y : Int) (m : Nat) : daysInMonth y m ≤ 31 := by
  unfold daysInMonth
  split_ifs <;> omega

lemma mkDate_none_of_gt31 (y : Int) (m d : Nat) (hd : 31 < d) : mkDate y m d = none := by
  have h31 := daysInMonth_le_31 y m
  unfold mkDate
  rw [if_neg]
  unfold validDate
  simp only [not_and]
  intro _ _ _
  omega

lemma mkDate_day_zero (y : Int) (m : Nat) : mkDate y m 0 = none := by
  unfold mkDate
  rw [if_neg]
  unfold validDate
  simp

lemma mwdLoop_day_zero : ∀ (fuel : Nat) (y : Int) (m : Nat), mwdLoop 0 fuel y m = none := by
  intro fuel
  induction fuel with
  | zero => intro y m; rfl
  | succ n ih => intro y m; simp [mwdLoop, mkDate_day_zero, ih]

/-- C6 counterexample: constructing `Monthly` or `Yearly` with day 32 does
not fail at the constructing call — both generator-function calls return
normally — while the very first advancement of the lazy sequence raises
(`AssertionError` for `Monthly`, `ValueError` for `Yearly`). -/
theorem c6_construction_does_not_fail :
    constructMonthly ⟨2024, 1, 1⟩ 32 = .ok (⟨2024, 1, 1⟩, 32) ∧
    constructYearly ⟨2024, 1, 1⟩ 1 32 = .ok (⟨2024, 1, 1⟩, 1, 32) ∧
    monthlyFirst 5 (⟨2024, 1, 1⟩, 32) = some (.error .assertionError) ∧
    yearlyFirst ⟨2024, 1, 1⟩ 1 32 = .error .valueError := by
  refine ⟨rfl, rfl, by decide, by decide⟩

/-- C6 amended: constructing `Monthly`/`Yearly` with an out-of-range day
never fails at the constructing call (a generator-function call runs no body
code); for a day above 31 the failure is raised at the first advancement of
the lazy sequence (`Monthly`'s assert, `Yearly`'s `date` constructor), and
for day 0 `Monthly`'s first advancement never returns at all (the skip
search loops forever), again without failing at construction. -/
theorem c6_amended_lazy_failure (s : Date) (hs : validDate s) (dm : Nat) (hdm : 31 < dm)
    (month fuel : Nat) :
    constructMonthly s dm = .ok (s, dm) ∧
    monthlyFirst fuel (s, dm) = some (.error .assertionError) ∧
    constructYearly s month dm = .ok (s, month, dm) ∧
    yearlyFirst s month dm = .error .valueError ∧
    constructMonthly s 0 = .ok (s, 0) ∧
    monthlyFirst fuel (s, 0) = none := by
  refine ⟨rfl, ?_, rfl, ?_, rfl, ?_⟩
  · unfold monthlyFirst
    rw [if_neg (by omega)]
  · unfold yearlyFirst
    rw [mkDate_none_of_gt31 _ _ _ hdm]
  · unfold monthlyFirst
    rw [if_pos (by omega)]
    unfold getNextMonthWithDay
    have hday : 0 < s.day := hs.2.2.1
    simp only [if_pos hday]
    rw [mwdLoop_day_zero]
    rfl

theorem c6_amended_lazy_failure_witness :
    validDate ⟨2024, 1, 1⟩ ∧ 31 < 32 ∧
      (constructMonthly ⟨2024, 1, 1⟩ 32 = .ok (⟨2024, 1, 1⟩, 32) ∧
      monthlyFirst 5 (⟨2024, 1, 1⟩, 32) = some (.error .assertionError) ∧
      constructYearly ⟨2024, 1, 1⟩ 2 32 = .ok (⟨2024, 1, 1⟩, 2, 32) ∧
      yearlyFirst ⟨2024, 1, 1⟩ 2 32 = .error .valueError ∧
      constructMonthly ⟨2024, 1, 1⟩ 0 = .ok (⟨2024, 1, 1⟩, 0) ∧
      monthlyFirst 5 (⟨2024, 1, 1⟩, 0) = none) :=
  ⟨by decide, by decide, c6_amended_lazy_failure ⟨2024, 1, 1⟩ (by decide) 32 (by decide) 2 5⟩

end Acct

namespace Acct

lemma runAlerters_foldl_error {ε : Type} (e : PyErr) :
    ∀ results : List (Option ε),
      (results.foldl
        (fun (acc : Except PyErr (PyBuffer ε)) r =>
          acc.bind (fun buf =>
            match r with
            | none => .ok buf
            | some ev => bufferAdd buf ev))
        (.error e)) = .error e := by
  intro results
  induction results with
  | nil => rfl
  | cons r rs ih => simpa [Except.bind] using ih

/-- C8 (code evaluation): on a freshly constructed `Ledger` the alert
buffer's `data` attribute was never assigned (`__init__` sets `_data`), so
the moment any alerter first returns an alert, `Buffer.add` raises
`AttributeError` instead of appending — and `flush` (retrieval) raises the
same error.  The claim that alerts accumulate without error is right about
the intent and wrong about the code. -/
theorem c8_first_alert_raises_attribute_error {ε : Type} (pre post : List (Option ε)) (a : ε)
    (hpre : ∀ r ∈ pre, r = none) :
    runAlerters (bufferInit none) (pre ++ some a :: post) = .error .attributeError ∧
    bufferFlush (bufferInit (ε := ε) none) = .error .attributeError := by
  constructor
  · unfold runAlerters
    induction pre with
    | nil =>
      simp only [List.nil_append, List.foldl_cons]
      have hadd : bufferAdd (bufferInit (ε := ε) none) a = .error .attributeError := rfl
      simp only [Except.bind, hadd]
      exact runAlerters_foldl_error _ post
    | cons r rs ih =>
      have hr : r = none := hpre r (by simp)
      subst hr
      simp only [List.cons_append, List.foldl_cons]
      exact ih (fun r hr => hpre r (by simp [hr]))
  · rfl

theorem c8_first_alert_raises_attribute_error_witness :
    (∀ r ∈ ([none] : List (Option Nat)), r = none) ∧
      (runAlerters (bufferInit none) ([none] ++ some 7 :: []) = .error .attributeError ∧
      bufferFlush (bufferInit (ε := Nat) none) = .error .attributeError) :=
  ⟨by decide, c8_first_alert_raises_attribute_error [none] [] 7 (by decide)⟩

/-- C9: processing entries whose debit and credit accounts all lie in a
closed account set conserves the sum of balances over that set, and a single
entry changes the balance function exactly by `+amount` at the debit account
and `-amount` at the credit account, leaving every other account unchanged. -/
theorem c9_double_entry_conservation (S : Finset String) (acc : String → ℚ)
    (entries : List (Entry ℚ))
    (hin : ∀ e ∈ entries, e.transaction.debit ∈ S ∧ e.transaction.credit ∈ S) :
    (∑ a ∈ S, applyEntries acc entries a) = (∑ a ∈ S, acc a) ∧
    ∀ (acc2 : String → ℚ) (e : Entry ℚ) (a : String),
      applyEntry acc2 e a =
        acc2 a + (if a = e.transaction.debit then e.transaction.amount else 0)
          - (if a = e.transaction.credit then e.transaction.amount else 0) := by
  have hpoint : ∀ (acc2 : String → ℚ) (e : Entry ℚ) (a : String),
      applyEntry acc2 e a =
        acc2 a + (if a = e.transaction.debit then e.transaction.amount else 0)
          - (if a = e.transaction.credit then e.transaction.amount else 0) := by
    intro acc2 e a
    simp only [applyEntry]
    split_ifs <;> ring
  refine ⟨?_, hpoint⟩
  induction entries generalizing acc with
  | nil => rfl
  | cons e es ih =>
    have hsum : (∑ a ∈ S, applyEntry acc e a) = ∑ a ∈ S, acc a := by
      have hd : e.transaction.debit ∈ S := (hin e (by simp)).1
      have hc : e.transaction.credit ∈ S := (hin e (by simp)).2
      calc (∑ a ∈ S, applyEntry acc e a)
          = ∑ a ∈ S, (acc a + (if a = e.transaction.debit then e.transaction.amount else 0)
              - (if a = e.transaction.credit then e.transaction.amount else 0)) := by
            exact Finset.sum_congr rfl (fun a _ => hpoint acc e a)
        _ = ∑ a ∈ S, acc a := by
            rw [Finset.sum_sub_distrib, Finset.sum_add_distrib,
              Finset.sum_ite_eq' S e.transaction.debit (fun _ => e.transaction.amount),
              Finset.sum_ite_eq' S e.transaction.credit (fun _ => e.transaction.amount),
              if_pos hd, if_pos hc]
            ring
    have := ih (applyEntry acc e) (fun e2 he2 => hin e2 (by simp [he2]))
    simpa [applyEntries, this, hsum] using this.trans hsum

theorem c9_double_entry_conservation_witness :
    (∀ e ∈ [(⟨0, ⟨5, "checking", "savings", "move"⟩⟩ : Entry ℚ)],
      e.transaction.debit ∈ ({"checking", "savings"} : Finset String) ∧
        e.transaction.credit ∈ ({"checking", "savings"} : Finset String)) ∧
    ((∑ a ∈ ({"checking", "savings"} : Finset String),
        applyEntries (fun _ => 0) [(⟨0, ⟨5, "checking", "savings", "move"⟩⟩ : Entry ℚ)] a) =
      (∑ a ∈ ({"checking", "savings"} : Finset String), (fun _ => (0 : ℚ)) a) ∧
    ∀ (acc2 : String → ℚ) (e : Entry ℚ) (a : String),
      applyEntry acc2 e a =
        acc2 a + (if a = e.transaction.debit then e.transaction.amount else 0)
          - (if a = e.transaction.credit then e.transaction.amount else 0)) :=
  ⟨by decide, c9_double_entry_conservation {"checking", "savings"} (fun _ => 0) _ (by decide)⟩

end Acct

namespace Acct

lemma pickMin_eq_none {α β : Type} [LinearOrder β] (key : α → β) :
    ∀ {l : List (Nat × UStream α)}, pickMin key l = none → l = [] := by
  intro l h
  cases l with
  | nil => rfl
  | cons x xs =>
    rcases hp : pickMin key xs with _ | ⟨pre, y, suf⟩ <;>
      simp [pickMin, hp] at h
    split at h <;> simp at h

lemma pickMin_append {α β : Type} [LinearOrder β] (key : α → β) :
    ∀ {l pre : List (Nat × UStream α)} {x suf}, pickMin key l = some (pre, x, suf) →
      l = pre ++ x :: suf := by
  intro l
  induction l with
  | nil => intro pre x suf h; simp [pickMin] at h
  | cons a xs ih =>
    intro pre x suf h
    rcases hp : pickMin key xs with _ | ⟨pre2, y, suf2⟩
    · rw [pickMin, hp] at h
      simp only [Option.some.injEq, Prod.mk.injEq] at h
      obtain ⟨rfl, rfl, rfl⟩ := h
      rfl
    · rw [pickMin, hp] at h
      dsimp only at h
      by_cases hk : key y.2.buf < key a.2.buf
      · rw [if_pos hk] at h
        simp only [Option.some.injEq, Prod.mk.injEq] at h
        obtain ⟨rfl, rfl, rfl⟩ := h
        simp [ih hp]
      · rw [if_neg hk] at h
        simp only [Option.some.injEq, Prod.mk.injEq] at h
        obtain ⟨rfl, rfl, rfl⟩ := h
        rfl

lemma pickMin_le {α β : Type} [LinearOrder β] (key : α → β) :
    ∀ {l pre : List (Nat × UStream α)} {x suf}, pickMin key l = some (pre, x, suf) →
      ∀ z ∈ l, key x.2.buf ≤ key z.2.buf := by
  intro l
  induction l with
  | nil => intro pre x suf h; simp [pickMin] at h
  | cons a xs ih =>
    intro pre x suf h z hz
    rcases hp : pickMin key xs with _ | ⟨pre2, y, suf2⟩
    · rw [pickMin, hp] at h
      simp only [Option.some.injEq, Prod.mk.injEq] at h
      obtain ⟨-, rfl, -⟩ := h
      have hxs := pickMin_eq_none key hp
      subst hxs
      rw [List.mem_singleton] at hz
      subst hz
      exact le_rfl
    · rw [pickMin, hp] at h
      dsimp only at h
      by_cases hk : key y.2.buf < key a.2.buf
      · rw [if_pos hk] at h
        simp only [Option.some.injEq, Prod.mk.injEq] at h
        obtain ⟨-, rfl, -⟩ := h
        rcases List.mem_cons.mp hz with rfl | hz2
        · exact le_of_lt hk
        · exact ih hp z hz2
      · rw [if_neg hk] at h
        simp only [Option.some.injEq, Prod.mk.injEq] at h
        obtain ⟨-, rfl, -⟩ := h
        rcases List.mem_cons.mp hz with rfl | hz2
        · exact le_rfl
        · exact le_trans (le_of_not_lt hk) (ih hp z hz2)

/-- C4: in reject-late mode, once a value has been emitted, `add_source` of a
non-empty source leaves the stream state completely unchanged exactly when
the source's peeked first value is strictly less than the last emitted value
(so a subsequent full drain is unchanged as well); when the peeked value is
at or above the last emitted value, the source is admitted into a slot
appended at the end of the table. -/
theorem c4_reject_late_policy {α β : Type} [LinearOrder α] [LinearOrder β]
    (key : α → β) (os : OStream α) (m b : α) (rest : List α)
    (hm : os.lastMin = some m) (hal : os.allowLate = false) :
    (addSource os (b :: rest) = os ↔ b < m) ∧
    (b < m → drain key (addSource os (b :: rest)) = drain key os) ∧
    (m ≤ b → ∃ i, (addSource os (b :: rest)).streams = os.streams ++ [(i, ⟨b, rest⟩)]) := by
  by_cases hlt : b < m
  · have heq : addSource os (b :: rest) = os := by
      simp [addSource, lateRejectB, hm, hal, hlt]
    refine ⟨⟨fun _ => hlt, fun _ => heq⟩, fun _ => by rw [heq],
      fun hge => absurd hlt (not_lt.mpr hge)⟩
  · have hins : ∃ i, (addSource os (b :: rest)).streams = os.streams ++ [(i, ⟨b, rest⟩)] := by
      cases hh : os.holes with
      | nil =>
        refine ⟨freshIdx (os.streams.map Prod.fst), ?_⟩
        simp [addSource, lateRejectB, hm, hal, hlt, hh]
      | cons i hs =>
        refine ⟨i, ?_⟩
        simp [addSource, lateRejectB, hm, hal, hlt, hh]
    obtain ⟨i, hi⟩ := hins
    have hne : addSource os (b :: rest) ≠ os := by
      intro hcontra
      have hstr : (addSource os (b :: rest)).streams = os.streams := by rw [hcontra]
      rw [hi] at hstr
      have hlen := congrArg List.length hstr
      simp at hlen
    exact ⟨⟨fun h => absurd h hne, fun h => absurd h hlt⟩,
      fun h => absurd h hlt, fun _ => ⟨i, hi⟩⟩

theorem c4_reject_late_policy_witness :
    ((⟨[(0, ⟨5, [9]⟩)], [], false, some 3⟩ : OStream Int).lastMin = some 3) ∧
    ((⟨[(0, ⟨5, [9]⟩)], [], false, some 3⟩ : OStream Int).allowLate = false) ∧
    ((addSource (⟨[(0, ⟨5, [9]⟩)], [], false, some 3⟩ : OStream Int) ([2, 7] : List Int) =
        (⟨[(0, ⟨5, [9]⟩)], [], false, some 3⟩ : OStream Int) ↔ (2 : Int) < 3) ∧
      ((2 : Int) < 3 →
        drain (id : Int → Int) (addSource (⟨[(0, ⟨5, [9]⟩)], [], false, some 3⟩ : OStream Int) [2, 7]) =
          drain id (⟨[(0, ⟨5, [9]⟩)], [], false, some 3⟩ : OStream Int)) ∧
      ((3 : Int) ≤ 2 → ∃ i,
        (addSource (⟨[(0, ⟨5, [9]⟩)], [], false, some 3⟩ : OStream Int) [2, 7]).streams =
          (⟨[(0, ⟨5, [9]⟩)], [], false, some 3⟩ : OStream Int).streams ++ [(i, ⟨2, [7]⟩)])) :=
  ⟨rfl, rfl, c4_reject_late_policy id _ 3 2 [7] rfl rfl⟩

end Acct

namespace Acct

lemma sizeS_eq_zero {α : Type} {l : List (Nat × UStream α)} (h : sizeS l = 0) : l = [] := by
  cases l with
  | nil => rfl
  | cons x xs => simp [sizeS] at h

lemma streamLists_mem {α : Type} (os : OStream α) :
    ∀ p ∈ os.streams, (p.2.buf :: p.2.rest) ∈ streamLists os := by
  intro p hp
  exact List.mem_map_of_mem _ hp

lemma step_some_spec {α β : Type} [LinearOrder β] (key : α → β) {os : OStream α}
    {v : α} {os2 : OStream α} (hs : step key os = some (v, os2)) :
    ∃ pre i s suf,
      pickMin key os.streams = some (pre, (i, s), suf) ∧
      os.streams = pre ++ (i, s) :: suf ∧
      v = s.buf ∧
      os2.lastMin = some s.buf ∧
      os2.allowLate = os.allowLate ∧
      ((s.rest = [] ∧ os2.streams = pre ++ suf) ∨
        (∃ r rs, s.rest = r :: rs ∧ os2.streams = pre ++ (i, (⟨r, rs⟩ : UStream α)) :: suf)) := by
  rcases hp : pickMin key os.streams with _ | ⟨pre, ⟨i, s⟩, suf⟩
  · rw [step, hp] at hs
    simp at hs
  · refine ⟨pre, i, s, suf, rfl, pickMin_append key hp, ?_⟩
    rw [step, hp] at hs
    dsimp only at hs
    rcases hr : s.rest with _ | ⟨r, rs⟩ <;> rw [hr] at hs <;> dsimp only at hs <;>
      simp only [Option.some.injEq, Prod.mk.injEq] at hs
    · obtain ⟨rfl, rfl⟩ := hs
      exact ⟨rfl, rfl, rfl, Or.inl ⟨rfl, rfl⟩⟩
    · obtain ⟨rfl, rfl⟩ := hs
      exact ⟨rfl, rfl, rfl, Or.inr ⟨r, rs, rfl, rfl⟩⟩

lemma step_eq_none {α β : Type} [LinearOrder β] {key : α → β} {os : OStream α}
    (hs : step key os = none) : os.streams = [] := by
  rcases hp : pickMin key os.streams with _ | ⟨pre, ⟨i, s⟩, suf⟩
  · exact pickMin_eq_none key hp
  · rw [step, hp] at hs
    dsimp only at hs
    rcases hr : s.rest with _ | ⟨r, rs⟩ <;> rw [hr] at hs <;> simp at hs

lemma step_size {α β : Type} [LinearOrder β] {key : α → β} {os : OStream α}
    {v : α} {os2 : OStream α} (hs : step key os = some (v, os2)) :
    totalSize os2 + 1 = totalSize os := by
  obtain ⟨pre, i, s, suf, hp, hsplit, hv, hlm, hal, hcase⟩ := step_some_spec key hs
  rcases hcase with ⟨hr, hstr⟩ | ⟨r, rs, hr, hstr⟩ <;>
    · unfold totalSize
      rw [hsplit, hstr]
      simp [sizeS, hr]
      omega

lemma pairwise_head_le {α β : Type} [LinearOrder β] {key : α → β} {c : α} {cs : List α}
    (h : (c :: cs).Pairwise (leK key)) : ∀ w ∈ c :: cs, key c ≤ key w := by
  intro w hw
  rcases List.mem_cons.mp hw with rfl | hw2
  · exact le_rfl
  · exact (List.pairwise_cons.mp h).1 w hw2

lemma step_preserves_sorted {α β : Type} [LinearOrder β] {key : α → β} {os : OStream α}
    {v : α} {os2 : OStream α} (hs : step key os = some (v, os2))
    (hsort : ∀ l ∈ streamLists os, l.Pairwise (leK key)) :
    ∀ l ∈ streamLists os2, l.Pairwise (leK key) := by
  obtain ⟨pre, i, s, suf, hp, hsplit, hv, hlm, hal, hcase⟩ := step_some_spec key hs
  have hs_self : (s.buf :: s.rest) ∈ streamLists os :=
    streamLists_mem os (i, s) (by rw [hsplit]; simp)
  intro l hl
  rw [streamLists] at hl
  obtain ⟨p, hp2, rfl⟩ := List.mem_map.mp hl
  rcases hcase with ⟨hr, hstr⟩ | ⟨r, rs, hr, hstr⟩
  · rw [hstr] at hp2
    refine hsort _ (streamLists_mem os p ?_)
    rw [hsplit]
    simp only [List.mem_append, List.mem_cons] at hp2 ⊢
    tauto
  · rw [hstr] at hp2
    simp only [List.mem_append, List.mem_cons] at hp2
    rcases hp2 with hpre | hpeq | hsuf
    · exact hsort _ (streamLists_mem os p (by rw [hsplit]; simp [hpre]))
    · subst hpeq
      have h1 : (s.buf :: s.rest).Pairwise (leK key) := hsort _ hs_self
      rw [hr] at h1
      exact (List.pairwise_cons.mp h1).2
    · exact hsort _ (streamLists_mem os p (by rw [hsplit]; simp [hsuf]))

lemma step_emitted_le {α β : Type} [LinearOrder β] {key : α → β} {os : OStream α}
    {v : α} {os2 : OStream α} (hs : step key os = some (v, os2))
    (hsort : ∀ l ∈ streamLists os, l.Pairwise (leK key)) :
    ∀ w ∈ (streamLists os2).join, key v ≤ key w := by
  obtain ⟨pre, i, s, suf, hp, hsplit, hv, hlm, hal, hcase⟩ := step_some_spec key hs
  have hs_self : (s.buf :: s.rest) ∈ streamLists os :=
    streamLists_mem os (i, s) (by rw [hsplit]; simp)
  intro w hw
  obtain ⟨l, hl, hwl⟩ := List.mem_join.mp hw
  rw [streamLists] at hl
  obtain ⟨p, hp2, rfl⟩ := List.mem_map.mp hl
  have hfrom_os : ∀ q, q ∈ os.streams → w ∈ q.2.buf :: q.2.rest → key v ≤ key w := by
    intro q hq hwq
    have h1 : key s.buf ≤ key q.2.buf := pickMin_le key hp q hq
    have h2 : key q.2.buf ≤ key w :=
      pairwise_head_le (hsort _ (streamLists_mem os q hq)) w hwq
    rw [hv]
    exact le_trans h1 h2
  rcases hcase with ⟨hr, hstr⟩ | ⟨r, rs, hr, hstr⟩
  · rw [hstr] at hp2
    refine hfrom_os p ?_ hwl
    rw [hsplit]
    simp only [List.mem_append, List.mem_cons] at hp2 ⊢
    tauto
  · rw [hstr] at hp2
    simp only [List.mem_append, List.mem_cons] at hp2
    rcases hp2 with hpre | hpeq | hsuf
    · exact hfrom_os p (by rw [hsplit]; simp [hpre]) hwl
    · subst hpeq
      have hsb : ∀ y ∈ s.rest, key s.buf ≤ key y := by
        intro y hy
        exact pairwise_head_le (hsort _ hs_self) y (by simp [hy])
      rw [hv]
      exact hsb w (by rw [hr]; exact hwl)
    · exact hfrom_os p (by rw [hsplit]; simp [hsuf]) hwl

end Acct

namespace Acct

lemma drainGo_perm {α β : Type} [LinearOrder β] (key : α → β) :
    ∀ (n : Nat) (os : OStream α), totalSize os ≤ n →
      (drainGo key n os).Perm (streamLists os).join := by
  intro n
  induction n with
  | zero =>
    intro os h
    have hnil : os.streams = [] := sizeS_eq_zero (Nat.le_zero.mp h)
    simp [drainGo, streamLists, hnil]
  | succ n ih =>
    intro os h
    rcases hs : step key os with _ | ⟨v, os2⟩
    · have hnil : os.streams = [] := step_eq_none hs
      simp [drainGo, hs, streamLists, hnil]
    · have hsz : totalSize os2 ≤ n := by
        have := step_size hs
        omega
      have hperm := ih os2 hsz
      obtain ⟨pre, i, s, suf, hp, hsplit, hv, hlm, hal, hcase⟩ := step_some_spec key hs
      subst hv
      simp only [drainGo, hs]
      rcases hcase with ⟨hr, hstr⟩ | ⟨r, rs, hr, hstr⟩
      · have hA : (streamLists os2).join =
            ((pre.map (fun p => p.2.buf :: p.2.rest)).join ++
              (suf.map (fun p => p.2.buf :: p.2.rest)).join) := by
          simp [streamLists, hstr]
        have hB : (streamLists os).join =
            ((pre.map (fun p => p.2.buf :: p.2.rest)).join ++
              s.buf :: (suf.map (fun p => p.2.buf :: p.2.rest)).join) := by
          simp [streamLists, hsplit, hr]
        rw [hB]
        refine (hperm.cons s.buf).trans ?_
        rw [hA]
        exact List.perm_middle.symm
      · have hA : (streamLists os2).join =
            ((pre.map (fun p => p.2.buf :: p.2.rest)).join ++
              (r :: rs ++ (suf.map (fun p => p.2.buf :: p.2.rest)).join)) := by
          simp [streamLists, hstr]
        have hB : (streamLists os).join =
            ((pre.map (fun p => p.2.buf :: p.2.rest)).join ++
              s.buf :: (r :: rs ++ (suf.map (fun p => p.2.buf :: p.2.rest)).join)) := by
          simp [streamLists, hsplit, hr]
        rw [hB]
        refine (hperm.cons s.buf).trans ?_
        rw [hA]
        exact List.perm_middle.symm

lemma drainGo_sorted {α β : Type} [LinearOrder β] (key : α → β) :
    ∀ (n : Nat) (os : OStream α), totalSize os ≤ n →
      (∀ l ∈ streamLists os, l.Pairwise (leK key)) →
      (drainGo key n os).Pairwise (leK key) := by
  intro n
  induction n with
  | zero => intro os h hsort; simp [drainGo]
  | succ n ih =>
    intro os h hsort
    rcases hs : step key os with _ | ⟨v, os2⟩
    · simp [drainGo, hs]
    · have hsz : totalSize os2 ≤ n := by
        have := step_size hs
        omega
      simp only [drainGo, hs]
      rw [List.pairwise_cons]
      constructor
      · intro w hw
        have hwj : w ∈ (streamLists os2).join :=
          (drainGo_perm key n os2 hsz).mem_iff.mp hw
        exact step_emitted_le hs hsort w hwj
      · exact ih os2 hsz (step_preserves_sorted hs hsort)

lemma addSource_none_lastMin {α : Type} [LinearOrder α] (os : OStream α) (src : List α) :
    (addSource os src).lastMin = os.lastMin := by
  rcases src with _ | ⟨b, rest⟩
  · rfl
  · simp only [addSource]
    split
    · rfl
    · cases os.holes <;> rfl

lemma addSource_streamLists_of_none {α : Type} [LinearOrder α] (os : OStream α)
    (src : List α) (h : os.lastMin = none) :
    streamLists (addSource os src) =
      streamLists os ++ (if src = [] then [] else [src]) := by
  rcases src with _ | ⟨b, rest⟩
  · simp [addSource]
  · unfold addSource
    rw [h]
    simp only [lateRejectB, Bool.false_and, Bool.if_false_left]
    cases os.holes <;> simp [streamLists]

lemma initOS_aux {α : Type} [LinearOrder α] :
    ∀ (sources : List (List α)) (os : OStream α), os.lastMin = none →
      streamLists (sources.foldl addSource os) =
        streamLists os ++ sources.filter (fun l => !l.isEmpty) := by
  intro sources
  induction sources with
  | nil => intro os h; simp
  | cons src rest ih =>
    intro os h
    rw [List.foldl_cons]
    rw [ih (addSource os src) (by rw [addSource_none_lastMin, h])]
    rw [addSource_streamLists_of_none os src h]
    rcases src with _ | ⟨b, tl⟩ <;> simp

lemma join_filter_nonempty {α : Type} :
    ∀ sources : List (List α),
      ((sources.filter (fun l => !l.isEmpty)).join) = sources.join := by
  intro sources
  induction sources with
  | nil => rfl
  | cons l rest ih =>
    rcases l with _ | ⟨b, tl⟩ <;> simp [ih]

/-- C2: with no mid-iteration `add_source` calls, `OrderedStream.generate`
over finitely many individually key-sorted sources emits a permutation of
the concatenation of all the sources' values, in non-decreasing key order —
i.e. exactly the sorted concatenation of the inputs. -/
theorem c2_merge_is_sorted_concatenation {α β : Type} [LinearOrder α] [LinearOrder β]
    (key : α → β) (sources : List (List α))
    (hs : ∀ l ∈ sources, l.Pairwise (leK key)) :
    (drain key (initOS false sources)).Perm sources.join ∧
    (drain key (initOS false sources)).Pairwise (leK key) := by
  have hlists : streamLists (initOS false sources) =
      sources.filter (fun l => !l.isEmpty) := by
    have := initOS_aux sources (emptyOS false) rfl
    simpa [initOS, emptyOS, streamLists] using this
  constructor
  · refine (drainGo_perm key _ _ le_rfl).trans ?_
    rw [hlists, join_filter_nonempty]
  · refine drainGo_sorted key _ _ le_rfl ?_
    intro l hl
    rw [hlists] at hl
    exact hs l (List.mem_filter.mp hl).1

theorem c2_merge_is_sorted_concatenation_witness :
    (∀ l ∈ [[1, 2, 4], [1, 3], ([] : List Int)], l.Pairwise (leK (id : Int → Int))) ∧
    ((drain (id : Int → Int) (initOS false [[1, 2, 4], [1, 3], []])).Perm
        ([[1, 2, 4], [1, 3], ([] : List Int)]).join ∧
      (drain (id : Int → Int) (initOS false [[1, 2, 4], [1, 3], []])).Pairwise
        (leK (id : Int → Int))) :=
  ⟨by decide, c2_merge_is_sorted_concatenation id [[1, 2, 4], [1, 3], []] (by decide)⟩

end Acct

namespace Acct

lemma addSource_reject {α : Type} [LinearOrder α] {os : OStream α} {b : α} {rest : List α}
    {m : α} (hm : os.lastMin = some m) (hal : os.allowLate = false) (hlt : b < m) :
    addSource os (b :: rest) = os := by
  simp [addSource, lateRejectB, hm, hal, hlt]

lemma addSource_admit_spec {α : Type} [LinearOrder α] {os : OStream α} {b : α} {rest : List α}
    (h : ∀ m, os.lastMin = some m → ¬ b < m) :
    ∃ i, (addSource os (b :: rest)).streams = os.streams ++ [(i, ⟨b, rest⟩)] ∧
      (addSource os (b :: rest)).lastMin = os.lastMin ∧
      (addSource os (b :: rest)).allowLate = os.allowLate := by
  have hcond : (lateRejectB os.lastMin b && !os.allowLate) = false := by
    rcases hlm : os.lastMin with _ | m
    · simp [lateRejectB]
    · cases hal2 : os.allowLate
      · simp [lateRejectB, hlm, h m hlm]
      · simp [hal2]
  cases hh : os.holes with
  | nil =>
    exact ⟨freshIdx (os.streams.map Prod.fst),
      by simp [addSource, hcond, hh], by simp [addSource, hcond, hh],
      by simp [addSource, hcond, hh]⟩
  | cons i hs =>
    exact ⟨i, by simp [addSource, hcond, hh], by simp [addSource, hcond, hh],
      by simp [addSource, hcond, hh]⟩

lemma inv_addSource {α β : Type} [LinearOrder α] [LinearOrder β] {key : α → β}
    (hmono : ∀ x y : α, x ≤ y → key x ≤ key y)
    {os : OStream α} {out : List α} (hinv : Inv key (os, out))
    {src : List α} (hsrc : src.Pairwise (leK key)) :
    Inv key (addSource os src, out) := by
  obtain ⟨hal, hsort, hout, hnone, hsome⟩ := hinv
  dsimp only at hal hsort hout hnone hsome
  rcases src with _ | ⟨b, rest⟩
  · exact ⟨hal, hsort, hout, hnone, hsome⟩
  · by_cases hrej : ∃ m, os.lastMin = some m ∧ b < m
    · obtain ⟨m, hm, hlt⟩ := hrej
      rw [addSource_reject hm hal hlt]
      exact ⟨hal, hsort, hout, hnone, hsome⟩
    · push_neg at hrej
      obtain ⟨i, hstr, hlm2, hal2⟩ :=
        @addSource_admit_spec α _ os b rest (fun m hm => not_lt.mpr (hrej m hm))
      refine ⟨by rw [hal2]; exact hal, ?_, hout, ?_, ?_⟩
      · intro l hl
        rw [streamLists, hstr, List.map_append] at hl
        rcases List.mem_append.mp hl with hl1 | hl2
        · exact hsort l (by rw [streamLists]; exact hl1)
        · simp only [List.map_cons, List.map_nil, List.mem_singleton] at hl2
          subst hl2
          exact hsrc
      · intro h2
        rw [hlm2] at h2
        exact hnone h2
      · intro m hm2
        rw [hlm2] at hm2
        obtain ⟨ho, hv⟩ := hsome m hm2
        refine ⟨ho, ?_⟩
        intro l hl w hw
        rw [streamLists, hstr, List.map_append] at hl
        rcases List.mem_append.mp hl with hl1 | hl2
        · exact hv l (by rw [streamLists]; exact hl1) w hw
        · simp only [List.map_cons, List.map_nil, List.mem_singleton] at hl2
          subst hl2
          have hmb : key m ≤ key b := hmono m b (hrej m hm2)
          exact le_trans hmb (pairwise_head_le hsrc w hw)

lemma inv_emit {α β : Type} [LinearOrder α] [LinearOrder β] {key : α → β}
    {os : OStream α} {out : List α} (hinv : Inv key (os, out))
    {v : α} {os2 : OStream α} (hs : step key os = some (v, os2)) :
    Inv key (os2, out ++ [v]) := by
  obtain ⟨hal, hsort, hout, hnone, hsome⟩ := hinv
  dsimp only at hal hsort hout hnone hsome
  obtain ⟨pre, i, s, suf, hp, hsplit, hv, hlm2, hal2, hcase⟩ := step_some_spec key hs
  have hv_in : v ∈ (streamLists os).join :=
    List.mem_join.mpr ⟨s.buf :: s.rest,
      streamLists_mem os (i, s) (by rw [hsplit]; simp), by rw [hv]; simp⟩
  have hout_le_v : ∀ o ∈ out, key o ≤ key v := by
    intro o ho
    rcases hlmo : os.lastMin with _ | m
    · rw [hnone hlmo] at ho
      cases ho
    · obtain ⟨ho_le, hvals⟩ := hsome m hlmo
      obtain ⟨l, hl, hvl⟩ := List.mem_join.mp hv_in
      exact le_trans (ho_le o ho) (hvals l hl v hvl)
  refine ⟨by rw [hal2]; exact hal, step_preserves_sorted hs hsort, ?_, ?_, ?_⟩
  · rw [List.pairwise_append]
    refine ⟨hout, List.pairwise_singleton _ _, ?_⟩
    intro o ho w hw
    rw [List.mem_singleton] at hw
    subst hw
    exact hout_le_v o ho
  · intro h2
    rw [hlm2] at h2
    cases h2
  · intro m hm2
    rw [hlm2] at hm2
    have hmv : s.buf = m := by
      simpa using hm2
    constructor
    · intro o ho
      rcases List.mem_append.mp ho with ho1 | ho2
      · have := hout_le_v o ho1
        rw [hv] at this
        rw [← hmv]
        exact this
      · rw [List.mem_singleton] at ho2
        subst ho2
        rw [← hmv, hv]
        exact le_rfl
    · intro l hl w hw
      have := step_emitted_le hs hsort w (List.mem_join.mpr ⟨l, hl, hw⟩)
      rw [hv] at this
      rw [← hmv]
      exact this

lemma inv_runTrace {α β : Type} [LinearOrder α] [LinearOrder β] {key : α → β}
    (hmono : ∀ x y : α, x ≤ y → key x ≤ key y) :
    ∀ (trace : List (Op α)) (st : OStream α × List α), Inv key st →
      (∀ op ∈ trace, opOk key op) → Inv key (trace.foldl (applyOp key) st) := by
  intro trace
  induction trace with
  | nil => intro st h _; exact h
  | cons op rest ih =>
    intro st h hok
    rw [List.foldl_cons]
    refine ih _ ?_ (fun op2 h2 => hok op2 (by simp [h2]))
    rcases op with _ | src
    · rcases hs : step key st.1 with _ | ⟨v, os2⟩
      · simpa [applyOp, hs] using h
      · have := inv_emit h hs
        simpa [applyOp, hs] using this
    · have hsrc : src.Pairwise (leK key) := hok (.add src) (by simp)
      have := inv_addSource hmono h hsrc
      simpa [applyOp] using this

/-- C3 counterexample: with a key that inverts the value order, a source can
be admitted (the lateness check `self._min > stream.buf` compares raw
values, not keys) whose values sort strictly below the last emitted value
under the key.  With reject-late mode, key `x ↦ -x`, an initial source
`[3, 1]` (non-decreasing under the key) and a source `[4]` added after the
first emission, the stream emits `[3, 4]` — not non-decreasing under the
key. -/
theorem c3_counterexample_key_order :
    (∀ op ∈ ([Op.add [3, 1], Op.emit, Op.add [4], Op.emit] : List (Op Int)),
      opOk (fun x : Int => -x) op) ∧
    (runTrace (fun x : Int => -x) false [Op.add [3, 1], Op.emit, Op.add [4], Op.emit]).2 =
      [3, 4] ∧
    ¬ ((runTrace (fun x : Int => -x) false
        [Op.add [3, 1], Op.emit, Op.add [4], Op.emit]).2).Pairwise
      (leK (fun x : Int => -x)) :=
  ⟨by decide, by decide, by decide⟩

/-- C3 amended: in reject-late mode, for every interleaving of `generate()`
steps and `add_source` calls whose sources are locally non-decreasing under
the key, the emitted sequence is globally non-decreasing under the key,
provided the key is monotone with respect to the value order (the lateness
check compares raw values; the original claim fails for order-inverting
keys). -/
theorem c3_amended_global_monotonicity {α β : Type} [LinearOrder α] [LinearOrder β]
    (key : α → β) (hmono : ∀ x y : α, x ≤ y → key x ≤ key y)
    (trace : List (Op α)) (hok : ∀ op ∈ trace, opOk key op) :
    ((runTrace key false trace).2).Pairwise (leK key) := by
  have hinv0 : Inv key (emptyOS false, ([] : List α)) := by
    refine ⟨rfl, ?_, List.Pairwise.nil, fun _ => rfl, ?_⟩
    · intro l hl
      simp [streamLists, emptyOS] at hl
    · intro m hm
      simp [emptyOS] at hm
  exact (inv_runTrace hmono trace _ hinv0 hok).2.2.1

theorem c3_amended_global_monotonicity_witness :
    (∀ x y : Int, x ≤ y → (id : Int → Int) x ≤ id y) ∧
    (∀ op ∈ ([Op.add [1, 2], Op.emit, Op.add [2, 5], Op.emit, Op.emit] : List (Op Int)),
      opOk (id : Int → Int) op) ∧
    ((runTrace (id : Int → Int) false
        [Op.add [1, 2], Op.emit, Op.add [2, 5], Op.emit, Op.emit]).2).Pairwise
      (leK (id : Int → Int)) :=
  ⟨fun _ _ h => h, by decide,
    c3_amended_global_monotonicity id (fun _ _ h => h) _ (by decide)⟩

end Acct

namespace Acct

lemma nextYearMonth_range (y : Int) (m : Nat) (h1 : 1 ≤ m) (h2 : m ≤ 12) :
    1 ≤ (nextYearMonth y m).2 ∧ (nextYearMonth y m).2 ≤ 12 := by
  unfold nextYearMonth
  dsimp only
  split_ifs with h <;> constructor <;> omega

lemma month31_or_next (y : Int) (m : Nat) (h1 : 1 ≤ m) (h2 : m ≤ 12) :
    daysInMonth y m = 31 ∨
      daysInMonth (nextYearMonth y m).1 (nextYearMonth y m).2 = 31 := by
  interval_cases m <;> simp [daysInMonth, nextYearMonth]

lemma mwdLoop31 {y : Int} {m : Nat} (h1 : 1 ≤ m) (h2 : m ≤ 12) {fuel : Nat} (hf : 2 ≤ fuel) :
    ∃ d : Date, mwdLoop 31 fuel y m = some d ∧ validDate d ∧ d.day = 31 ∧
      daysInMonth d.year d.month = 31 := by
  obtain ⟨k, rfl⟩ : ∃ k, fuel = k + 2 := ⟨fuel - 2, by omega⟩
  by_cases hm31 : daysInMonth y m = 31
  · have hmk : mkDate y m 31 = some ⟨y, m, 31⟩ := by
      unfold mkDate
      rw [if_pos]
      exact ⟨h1, h2, show (1 : Nat) ≤ 31 by omega, show (31 : Nat) ≤ daysInMonth y m by omega⟩
    refine ⟨⟨y, m, 31⟩, ?_,
      ⟨h1, h2, show (1 : Nat) ≤ 31 by omega, show (31 : Nat) ≤ daysInMonth y m by omega⟩,
      rfl, hm31⟩
    simp [mwdLoop, hmk]
  · have hnext : daysInMonth (nextYearMonth y m).1 (nextYearMonth y m).2 = 31 :=
      (month31_or_next y m h1 h2).resolve_left hm31
    have hrange := nextYearMonth_range y m h1 h2
    have hmk_none : mkDate y m 31 = none := by
      unfold mkDate
      rw [if_neg]
      rintro ⟨-, -, -, hle⟩
      dsimp only at hle
      have := daysInMonth_le_31 y m
      omega
    have hmk2 : mkDate (nextYearMonth y m).1 (nextYearMonth y m).2 31 =
        some ⟨(nextYearMonth y m).1, (nextYearMonth y m).2, 31⟩ := by
      unfold mkDate
      rw [if_pos]
      exact ⟨hrange.1, hrange.2, show (1 : Nat) ≤ 31 by omega,
        show (31 : Nat) ≤ daysInMonth (nextYearMonth y m).1 (nextYearMonth y m).2 by omega⟩
    refine ⟨⟨(nextYearMonth y m).1, (nextYearMonth y m).2, 31⟩, ?_,
      ⟨hrange.1, hrange.2, show (1 : Nat) ≤ 31 by omega,
        show (31 : Nat) ≤ daysInMonth (nextYearMonth y m).1 (nextYearMonth y m).2 by omega⟩,
      rfl, hnext⟩
    simp [mwdLoop, hmk_none, hmk2]

lemma getNext31 (start : Date) (hs : validDate start) (fuel : Nat) (hf : 2 ≤ fuel) :
    ∃ d, getNextMonthWithDay fuel start 31 = some d ∧ validDate d ∧ d.day = 31 ∧
      daysInMonth d.year d.month = 31 := by
  obtain ⟨h1, h2, h3, h4⟩ := hs
  have hday31 : ¬ 31 < start.day := by
    have := daysInMonth_le_31 start.year start.month
    omega
  simpa [getNextMonthWithDay, hday31] using mwdLoop31 h1 h2 hf

lemma advanceMonth31 (d : Date) (h1 : 1 ≤ d.month) (h2 : d.month ≤ 12) (hd31 : d.day = 31)
    (fuel : Nat) (hf : 2 ≤ fuel) :
    ∃ d2, advanceMonth fuel d = some d2 ∧ validDate d2 ∧ d2.day = 31 ∧
      daysInMonth d2.year d2.month = 31 := by
  have hrange := nextYearMonth_range d.year d.month h1 h2
  unfold advanceMonth
  rw [hd31]
  exact mwdLoop31 hrange.1 hrange.2 hf

/-- C7: from every valid start date, every date emitted by `Monthly(31)` has
day-of-month 31 and lies in a month with 31 days — months lacking day 31 are
skipped, never clamped, for the first and every subsequent emission (the
search needs at most two candidate months, so fuel 2 suffices for every
step of the unbounded source loops). -/
theorem c7_monthly31_skip_not_clamp (start : Date) (hs : validDate start)
    (fuel : Nat) (hf : 2 ≤ fuel) (n : Nat) :
    ∃ d, monthlyNth fuel start 31 n = some d ∧ d.day = 31 ∧
      daysInMonth d.year d.month = 31 := by
  have hstrong : ∀ k, ∃ d, monthlyNth fuel start 31 k = some d ∧ validDate d ∧
      d.day = 31 ∧ daysInMonth d.year d.month = 31 := by
    intro k
    induction k with
    | zero => exact getNext31 start hs fuel hf
    | succ j ih =>
      obtain ⟨d, hd, hvd, hd31, hdm⟩ := ih
      obtain ⟨d2, hd2, hvd2, h31, hm31⟩ := advanceMonth31 d hvd.1 hvd.2.1 hd31 fuel hf
      refine ⟨d2, ?_, hvd2, h31, hm31⟩
      simp [monthlyNth, hd, hd2]
  obtain ⟨d, h1, h2, h3, h4⟩ := hstrong n
  exact ⟨d, h1, h3, h4⟩

theorem c7_monthly31_skip_not_clamp_witness :
    validDate ⟨2016, 4, 10⟩ ∧ 2 ≤ 2 ∧
      (∃ d, monthlyNth 2 ⟨2016, 4, 10⟩ 31 1 = some d ∧ d.day = 31 ∧
        daysInMonth d.year d.month = 31) :=
  ⟨by decide, by decide, c7_monthly31_skip_not_clamp ⟨2016, 4, 10⟩ (by decide) 2 (by decide) 1⟩

end Acct

namespace Acct.Sim

lemma iter_fix {σ : Type} (f : σ → Option σ) {s : σ} (h : f s = none) :
    ∀ n, iter f n s = s := by
  intro n
  cases n with
  | zero => rfl
  | succ k => simp [iter, h]

lemma iter_add {σ : Type} (f : σ → Option σ) :
    ∀ (m n : Nat) (s : σ), iter f (m + n) s = iter f n (iter f m s) := by
  intro m
  induction m with
  | zero => intro n s; simp [iter]
  | succ k ih =>
    intro n s
    rw [show k + 1 + n = (k + n) + 1 by omega]
    rcases hfs : f s with _ | s2
    · simp [iter, hfs, iter_fix f hfs]
    · simp [iter, hfs, ih]

/-- C1 counterexample: the simulation of the end-to-end scenario processes
only 7 entries (4 paychecks and 3 transfers) and ends with
`checking = 3700`, `savings = 300`: the fourth transfer is dated 2024-02-19
(day 49), which exceeds `end` = 2024-02-16 (day 46), so `simulate` stops
without processing it — contradicting the claimed 8 entries and balances
3600/400. -/
theorem c1_counterexample_fourth_transfer_not_processed :
    (iter (simStep 46) 12 c1Init).out.length = 7 ∧
    (iter (simStep 46) 12 c1Init).accounts "checking" = 3700 ∧
    (iter (simStep 46) 12 c1Init).accounts "savings" = 300 ∧
    ¬ ((iter (simStep 46) 12 c1Init).out.length = 8 ∧
        (iter (simStep 46) 12 c1Init).accounts "checking" = 3600 ∧
        (iter (simStep 46) 12 c1Init).accounts "savings" = 400) := by
  exact ⟨by decide, by decide, by decide, by rintro ⟨h, -, -⟩; revert h; decide⟩

/-- C1 amended: fully draining `simulate(start=2024-01-01, end=2024-02-16)`
yields exactly the 4 paycheck entries (Jan 5, Jan 19, Feb 2, Feb 16)
interleaved with the transfers of 100 they trigger that fall within `end`
(Jan 8, Jan 22, Feb 5); the fourth scheduled transfer (Feb 19) is injected
into the stream but exceeds `end` and is not processed.  Final balances:
`checking = 3700`, `savings = 300`; no processed entry is dated after
`end`.  The run is stable: any extra iteration budget beyond the 7
processed entries changes nothing. -/
theorem c1_amended_three_transfers (n : Nat) :
    (iter (simStep 46) (7 + n) c1Init).out = c1Expected ∧
    (iter (simStep 46) (7 + n) c1Init).accounts "checking" = 3700 ∧
    (iter (simStep 46) (7 + n) c1Init).accounts "savings" = 300 ∧
    ∀ e ∈ (iter (simStep 46) (7 + n) c1Init).out, e.date ≤ 46 := by
  have hkey : iter (simStep 46) (7 + n) c1Init = iter (simStep 46) 7 c1Init := by
    rw [iter_add (simStep 46) 7 n c1Init]
    have hnone : (simStep 46 (iter (simStep 46) 7 c1Init)).isNone = true := by decide
    exact iter_fix _ (Option.isNone_iff_eq_none.mp hnone) n
  rw [hkey]
  exact ⟨by decide, by decide, by decide, by decide⟩

end Acct.Sim
